import Mathlib

/-!
Verification development for `src/dicomviewerSplashUI_CPP/convert_image.py`,
the single-file utility that converts a binary image file into a C++ header
embedding the file's bytes as an `unsigned char` array plus a size constant.

The embedding models:
* the pure text generation (`hex2`, `bodyAux`, `arrayBody`, `headerText`),
  translated line by line from `png_to_cpp_array`;
* the effectful shell of `png_to_cpp_array` (existence check, read, write,
  caught write errors) as an explicit transition on a filesystem state;
* spec-side artifacts: the output format block of the specification
  (`specHeaderFormat`), a `0xNN` token parser (`extractTokens`), and a
  comma-spacing scanner (`commaSpacingOk`) used to state the formatting
  properties.
-/

set_option maxRecDepth 16384

/-- Python `f"{b:02x}"`: lowercase hexadecimal digits of `b`, left-padded
with `'0'` to width at least 2.  `Nat.toDigits 16` produces the lowercase
hex digits most-significant first, exactly like CPython's `%x`. -/
def hex2 (b : Nat) : String :=
  ⟨List.replicate (2 - (Nat.toDigits 16 b).length) '0' ++ Nat.toDigits 16 b⟩

/-- The byte literal emitted for one byte: Python `f"0x{byte:02x}"`. -/
def tokenOf (b : Nat) : String := "0x" ++ hex2 b

/-- The loop of `png_to_cpp_array` (lines 26-31 of `convert_image.py`):

    for i, byte in enumerate(png_data):
        if i % 16 == 0:
            header_content += "\n    "
        header_content += f"0x{byte:02x},"
        if i < len(png_data) - 1 and i % 16 != 15:
            header_content += " "

`N` is `len(png_data)` (fixed over the whole loop), `i` the running index. -/
def bodyAux (N : Nat) : Nat → List Nat → String
  | _, [] => ""
  | i, byte :: rest =>
      (if i % 16 = 0 then "\n    " else "") ++
      (tokenOf byte ++ ",") ++
      (if i < N - 1 ∧ i % 16 ≠ 15 then " " else "") ++
      bodyAux N (i + 1) rest

/-- The full array body appended between the two f-string blocks. -/
def arrayBody (png_data : List Nat) : String := bodyAux png_data.length 0 png_data

/-- Python `os.path.basename` on POSIX paths: the part of the path after the
last slash (empty when the path ends in a slash). -/
def basename (p : String) : String :=
  ⟨p.data.foldl (fun acc c => if c = '/' then [] else acc ++ [c]) []⟩

/-- The first f-string block of `png_to_cpp_array` (lines 16-23), ending just
after the opening brace of the array declaration and its newline. -/
def headerTop (bn : String) (n : Nat) : String :=
  "#ifndef SPLASH_IMAGE_DATA_H\n#define SPLASH_IMAGE_DATA_H\n\n// Auto-generated from "
  ++ bn ++ "\n// File size: " ++ toString n
  ++ " bytes\n\nconst unsigned char SPLASH_IMAGE_DATA[] = \x7b\n"

/-- The second f-string block of `png_to_cpp_array` (lines 33-39): array
close, size constant, include-guard close. -/
def headerTail (n : Nat) : String :=
  "\n\x7d;\n\nconst unsigned int SPLASH_IMAGE_SIZE = " ++ toString n
  ++ ";\n\n#endif // SPLASH_IMAGE_DATA_H\n"

/-- The complete generated text `header_content`. -/
def headerText (bn : String) (png_data : List Nat) : String :=
  headerTop bn png_data.length ++ arrayBody png_data ++ headerTail png_data.length

/-! ### Spec-side combinators used to state the formatting claims -/

/-- The input split into consecutive chunks of 16 bytes (the bytes that share
one payload line). -/
def chunks16 (l : List Nat) : List (List Nat) :=
  if l = [] then [] else l.take 16 :: chunks16 (l.drop 16)
termination_by l.length
decreasing_by
  rename_i h
  have : 0 < l.length := List.length_pos.mpr h
  simp [List.length_drop]
  omega

/-- Join a list of strings with `", "` between consecutive elements. -/
def interComma : List String → String
  | [] => ""
  | [s] => s
  | s :: rest => s ++ ", " ++ interComma rest

/-- Plain concatenation of a list of strings. -/
def joinStr : List String → String
  | [] => ""
  | s :: rest => s ++ joinStr rest

/-- One payload line as the code actually renders it: a line break, four
spaces of indentation, the chunk's byte literals joined by `", "`, and a
terminating comma. -/
def renderChunk (c : List Nat) : String :=
  "\n    " ++ interComma (c.map tokenOf) ++ ","

/-- Modelled from the spec: one payload line of the output-format block in
section 6 of the spec: four spaces of indentation then the chunk's byte
literals, comma+space separated. -/
def specLine (c : List Nat) : String := "    " ++ interComma (c.map tokenOf)

/-- Modelled from the spec: payload lines joined so that every line except
the last ends with a comma, with no trailing comma on the final byte. -/
def specJoinLines : List String → String
  | [] => ""
  | [s] => s
  | s :: rest => s ++ ",\n" ++ specJoinLines rest

/-- Modelled from the spec: the array body as drawn in the spec's
output-format block: `16 per line, comma+space separated, no trailing comma
on final byte`, first payload line immediately after the declaration line. -/
def specArrayBody (data : List Nat) : String :=
  specJoinLines ((chunks16 data).map specLine)

/-- Modelled from the spec: the exact output-format block of section 6 of
the spec (`**Output file format** (exact, byte-for-byte reproducible)`). -/
def specHeaderFormat (bn : String) (data : List Nat) : String :=
  "#ifndef SPLASH_IMAGE_DATA_H\n#define SPLASH_IMAGE_DATA_H\n\n// Auto-generated from "
  ++ bn ++ "\n// File size: " ++ toString data.length
  ++ " bytes\n\nconst unsigned char SPLASH_IMAGE_DATA[] = \x7b\n"
  ++ specArrayBody data
  ++ "\n\x7d;\n\nconst unsigned int SPLASH_IMAGE_SIZE = " ++ toString data.length
  ++ ";\n\n#endif // SPLASH_IMAGE_DATA_H\n"

/-! ### Parsers and scanners over the emitted text -/

/-- Value of a lowercase hexadecimal digit character. -/
def hexVal (c : Char) : Option Nat :=
  if '0' ≤ c ∧ c ≤ '9' then some (c.toNat - '0'.toNat)
  else if 'a' ≤ c ∧ c ≤ 'f' then some (c.toNat - 'a'.toNat + 10)
  else none

/-- True for the characters a `0xNN` literal may use after `0x`. -/
def isLowerHexDigit (c : Char) : Bool :=
  ('0' ≤ c && c ≤ '9') || ('a' ≤ c && c ≤ 'f')

/-- Scan a character stream and decode every `0xNN` token, in order. -/
def extractTokens : List Char → List Nat
  | '0' :: 'x' :: c1 :: c2 :: rest2 =>
      match hexVal c1, hexVal c2 with
      | some hi, some lo => (16 * hi + lo) :: extractTokens rest2
      | _, _ => extractTokens ('x' :: c1 :: c2 :: rest2)
  | _ :: rest => extractTokens rest
  | [] => []

/-- Comma-spacing discipline: every comma is either at the end of a line
(followed by a newline), at the very end of the text, or followed by exactly
one space. -/
def commaSpacingOk : List Char → Bool
  | ',' :: ' ' :: rest =>
      (match rest with
       | ' ' :: _ => false
       | _ => commaSpacingOk rest)
  | ',' :: '\n' :: rest => commaSpacingOk rest
  | [','] => true
  | ',' :: _ => false
  | _ :: rest => commaSpacingOk rest
  | [] => true

/-! ### Effectful shell of `png_to_cpp_array` -/

/-- Contents of a file in the modelled filesystem: readable bytes, or a file
that exists (so `os.path.exists` succeeds) but whose open/read raises. -/
inductive FileVal where
  | readable (data : List Nat) : FileVal
  | unreadable : FileVal
deriving DecidableEq

/-- A filesystem: a partial map from paths to file contents. -/
def FS : Type := String → Option FileVal

/-- Store `v` at path `p`. -/
def fsUpdate (fs : FS) (p : String) (v : FileVal) : FS :=
  fun q => if q = p then some v else fs q

/-- Bytes of the (ASCII) generated text as written to disk. -/
def strBytes (s : String) : List Nat := s.data.map Char.toNat

/-- Outcome of one invocation: a Python return value together with the final
filesystem, or an uncaught exception propagating out of the function. -/
inductive RunResult where
  | ret (b : Bool) (fs : FS) : RunResult
  | raised (fs : FS) : RunResult

/-- The environment's choice for the guarded write step
`with open(output_header_path, 'w') as f: f.write(header_content)`:
either the write succeeds; or `open(..., 'w')` itself raises, before the
destination is touched; or the open succeeds — truncating the destination —
and `f.write` raises after only the first `k` bytes have reached the file.
The source performs no atomic temp-file-then-rename write, so the last case
leaves the output in a partial state. -/
inductive WriteOutcome where
  | success : WriteOutcome
  | openFailure : WriteOutcome
  | writeFailure (k : Nat) : WriteOutcome

/-- The effectful behaviour of `png_to_cpp_array` (lines 4-50):
missing input → print and `return False`; the read is not guarded by any
handler, so a failing open/read raises out of the function; only the write
is inside `try/except`, a caught write error yielding `return False` — with
the destination untouched when the `open` itself failed, but truncated to a
prefix of the intended bytes when `write` failed after the `open` had
already truncated the file. -/
def png_to_cpp_array (fs : FS) (png_file_path output_header_path : String)
    (wr : WriteOutcome) : RunResult :=
  match fs png_file_path with
  | none => RunResult.ret false fs
  | some FileVal.unreadable => RunResult.raised fs
  | some (FileVal.readable png_data) =>
      let header_content := headerText (basename png_file_path) png_data
      match wr with
      | WriteOutcome.success =>
          RunResult.ret true
            (fsUpdate fs output_header_path (FileVal.readable (strBytes header_content)))
      | WriteOutcome.openFailure => RunResult.ret false fs
      | WriteOutcome.writeFailure k =>
          RunResult.ret false
            (fsUpdate fs output_header_path
              (FileVal.readable ((strBytes header_content).take k)))

/-! ### String and character-list helpers -/

theorem str_ext {s t : String} (h : s.data = t.data) : s = t := by
  cases s; cases t; exact congrArg String.mk h

theorem data_append (s t : String) : (s ++ t).data = s.data ++ t.data := rfl

theorem data_empty : ("").data = ([] : List Char) := rfl

theorem data_comma : (",").data = [','] := rfl

theorem data_space : (" ").data = [' '] := rfl

theorem data_comma_space : (", ").data = [',', ' '] := rfl

theorem data_comma_nl : (",\n").data = [',', '\n'] := rfl

theorem data_nl_indent : ("\n    ").data = ['\n', ' ', ' ', ' ', ' '] := rfl

theorem data_indent : ("    ").data = [' ', ' ', ' ', ' '] := rfl

theorem data_zero_x : ("0x").data = ['0', 'x'] := rfl

theorem str_append_empty (s : String) : s ++ "" = s :=
  str_ext (by rw [data_append, data_empty, List.append_nil])

/-! ### Facts about the hexadecimal rendering -/

theorem hex2_data : ∀ b, b < 256 →
    (hex2 b).data = [Nat.digitChar (b / 16), Nat.digitChar (b % 16)] := by decide

theorem hexVal_digitChar : ∀ h, h < 16 → hexVal (Nat.digitChar h) = some h := by decide

theorem digitChar_ne_comma : ∀ h, h < 16 → Nat.digitChar h ≠ ',' := by decide

theorem digitChar_isLowerHex : ∀ h, h < 16 → isLowerHexDigit (Nat.digitChar h) = true := by decide

theorem tokenOf_data {b : Nat} (hb : b < 256) :
    (tokenOf b).data = '0' :: 'x' :: [Nat.digitChar (b / 16), Nat.digitChar (b % 16)] := by
  show (("0x" : String) ++ hex2 b).data = _
  rw [data_append, data_zero_x, hex2_data b hb]
  rfl

/-! ### Scanner equation lemmas -/

theorem extractTokens_cons_ne {c : Char} (rest : List Char) (h : c ≠ '0') :
    extractTokens (c :: rest) = extractTokens rest := by
  rw [extractTokens.eq_def]
  split
  · rename_i heq
    injection heq with h1 _
    exact absurd h1 h
  · rename_i heq
    injection heq with _ h2
    rw [h2]
  · simp_all

theorem extractTokens_nl (rest : List Char) :
    extractTokens ('\n' :: rest) = extractTokens rest :=
  extractTokens_cons_ne rest (by decide)

theorem extractTokens_sp (rest : List Char) :
    extractTokens (' ' :: rest) = extractTokens rest :=
  extractTokens_cons_ne rest (by decide)

theorem extractTokens_comma (rest : List Char) :
    extractTokens (',' :: rest) = extractTokens rest :=
  extractTokens_cons_ne rest (by decide)

theorem extractTokens_token {c1 c2 : Char} (r : List Char) {hi lo : Nat}
    (h1 : hexVal c1 = some hi) (h2 : hexVal c2 = some lo) :
    extractTokens ('0' :: 'x' :: c1 :: c2 :: r) = (16 * hi + lo) :: extractTokens r := by
  rw [extractTokens.eq_def]
  simp [h1, h2]

theorem commaSpacingOk_cons_ne {c : Char} (rest : List Char) (h : c ≠ ',') :
    commaSpacingOk (c :: rest) = commaSpacingOk rest := by
  rw [commaSpacingOk.eq_def]
  split
  · rename_i heq
    injection heq with h1 _
    exact absurd h1 h
  · rename_i heq
    injection heq with h1 _
    exact absurd h1 h
  · rename_i heq
    injection heq with h1 _
    exact absurd h1 h
  · rename_i heq
    injection heq with h1 _
    exact absurd h1 h
  · rename_i heq
    injection heq with _ h2
    rw [h2]
  · simp_all

theorem extractTokens_skip (l1 l2 : List Char) (h : ∀ c ∈ l1, c ≠ '0') :
    extractTokens (l1 ++ l2) = extractTokens l2 := by
  induction l1 with
  | nil => rfl
  | cons c t ih =>
    rw [List.cons_append, extractTokens_cons_ne _ (h c (List.mem_cons_self c t))]
    exact ih (fun x hx => h x (List.mem_cons_of_mem c hx))

theorem commaSpacingOk_skip (l1 l2 : List Char) (h : ∀ c ∈ l1, c ≠ ',') :
    commaSpacingOk (l1 ++ l2) = commaSpacingOk l2 := by
  induction l1 with
  | nil => rfl
  | cons c t ih =>
    rw [List.cons_append, commaSpacingOk_cons_ne _ (h c (List.mem_cons_self c t))]
    exact ih (fun x hx => h x (List.mem_cons_of_mem c hx))

theorem commaSpacingOk_comma_nl (r : List Char) :
    commaSpacingOk (',' :: '\n' :: r) = commaSpacingOk r := rfl

theorem commaSpacingOk_comma_sp_zero (r : List Char) :
    commaSpacingOk (',' :: ' ' :: '0' :: r) = commaSpacingOk ('0' :: r) := rfl

theorem commaSpacingOk_comma_end : commaSpacingOk [','] = true := rfl

theorem ite_nl_indent_no_zero (c : Prop) [Decidable c] :
    ∀ ch ∈ (if c then ("\n    " : String) else "").data, ch ≠ '0' := by
  split <;> decide

theorem ite_space_no_zero (c : Prop) [Decidable c] :
    ∀ ch ∈ (if c then (" " : String) else "").data, ch ≠ '0' := by
  split <;> decide

theorem ite_nl_indent_no_comma (c : Prop) [Decidable c] :
    ∀ ch ∈ (if c then ("\n    " : String) else "").data, ch ≠ ',' := by
  split <;> decide

/-! ### Round-trip: parsing the emitted body recovers the bytes -/

theorem extractTokens_bodyAux (N : Nat) :
    ∀ (l : List Nat) (i : Nat), (∀ b ∈ l, b < 256) →
      extractTokens (bodyAux N i l).data = l := by
  intro l
  induction l with
  | nil => intro i _; rfl
  | cons b rest ih =>
    intro i h
    have hb : b < 256 := h b (List.mem_cons_self b rest)
    have hrest : ∀ x ∈ rest, x < 256 := fun x hx => h x (List.mem_cons_of_mem b hx)
    have hdiv : b / 16 < 16 := by omega
    have hmod : b % 16 < 16 := by omega
    rw [bodyAux]
    simp only [data_append, data_comma, List.append_assoc]
    rw [extractTokens_skip _ _ (ite_nl_indent_no_zero _)]
    rw [tokenOf_data hb]
    simp only [List.cons_append, List.nil_append]
    rw [extractTokens_token _ (hexVal_digitChar _ hdiv) (hexVal_digitChar _ hmod)]
    rw [extractTokens_comma]
    rw [extractTokens_skip _ _ (ite_space_no_zero _)]
    rw [ih (i + 1) hrest]
    have hbval : 16 * (b / 16) + b % 16 = b := by omega
    rw [hbval]

/-! ### The emitted body always ends in a comma -/

theorem bodyAux_ends_comma (N : Nat) :
    ∀ (l : List Nat) (i : Nat), l ≠ [] → i + l.length = N →
      ∃ t, (bodyAux N i l).data = t ++ [','] := by
  intro l
  induction l with
  | nil => intro i h _; exact absurd rfl h
  | cons b rest ih =>
    intro i _ hN
    rw [bodyAux]
    by_cases hr : rest = []
    · subst hr
      have hlen : i + 1 = N := by simpa using hN
      have hs : ¬ (i < N - 1 ∧ i % 16 ≠ 15) := by omega
      refine ⟨(if i % 16 = 0 then ("\n    " : String) else "").data ++ (tokenOf b).data, ?_⟩
      rw [show bodyAux N (i + 1) [] = "" from rfl]
      simp [data_append, data_comma, if_neg hs, data_empty, List.append_assoc]
    · obtain ⟨t, ht⟩ := ih (i + 1) hr (by simp at hN ⊢; omega)
      refine ⟨(if i % 16 = 0 then ("\n    " : String) else "").data ++
        ((tokenOf b).data ++ ([','] ++
          ((if i < N - 1 ∧ i % 16 ≠ 15 then (" " : String) else "").data ++ t))), ?_⟩
      simp only [data_append, data_comma, ht, List.append_assoc]

/-- First character of the text emitted for a nonempty remainder of the loop:
a line break when `i` starts a line, otherwise the `0` of the byte literal. -/
theorem bodyAux_head_char (N i b : Nat) (rest : List Nat) :
    ∃ t, (bodyAux N i (b :: rest)).data = (if i % 16 = 0 then '\n' else '0') :: t := by
  rw [bodyAux]
  by_cases hi : i % 16 = 0
  · refine ⟨[' ', ' ', ' ', ' '] ++ ((tokenOf b).data ++ ([','] ++
      ((if i < N - 1 ∧ i % 16 ≠ 15 then (" " : String) else "").data ++
        (bodyAux N (i + 1) rest).data))), ?_⟩
    simp [hi, data_append, data_comma, data_nl_indent, List.append_assoc]
  · refine ⟨'x' :: (hex2 b).data ++ ([','] ++
      ((if i < N - 1 ∧ i % 16 ≠ 15 then (" " : String) else "").data ++
        (bodyAux N (i + 1) rest).data)), ?_⟩
    have : (tokenOf b).data = '0' :: 'x' :: (hex2 b).data := rfl
    simp [hi, data_append, data_comma, data_empty, this, List.append_assoc]

/-! ### Comma-spacing discipline of the emitted body -/

theorem commaSpacingOk_bodyAux (N : Nat) :
    ∀ (l : List Nat) (i : Nat), (∀ b ∈ l, b < 256) → i + l.length = N →
      commaSpacingOk (bodyAux N i l).data = true := by
  intro l
  induction l with
  | nil => intro i _ _; rfl
  | cons b rest ih =>
    intro i h hN
    have hb : b < 256 := h b (List.mem_cons_self b rest)
    have hrest : ∀ x ∈ rest, x < 256 := fun x hx => h x (List.mem_cons_of_mem b hx)
    have hdiv : b / 16 < 16 := by omega
    have hmod : b % 16 < 16 := by omega
    rw [bodyAux]
    simp only [data_append, data_comma, List.append_assoc]
    rw [commaSpacingOk_skip _ _ (ite_nl_indent_no_comma _)]
    rw [tokenOf_data hb]
    simp only [List.cons_append, List.nil_append]
    rw [commaSpacingOk_cons_ne _ (by decide : ('0' : Char) ≠ ',')]
    rw [commaSpacingOk_cons_ne _ (by decide : ('x' : Char) ≠ ',')]
    rw [commaSpacingOk_cons_ne _ (digitChar_ne_comma _ hdiv)]
    rw [commaSpacingOk_cons_ne _ (digitChar_ne_comma _ hmod)]
    by_cases hr : rest = []
    · subst hr
      have hlen : i + 1 = N := by simpa using hN
      have hs : ¬ (i < N - 1 ∧ i % 16 ≠ 15) := by omega
      rw [show bodyAux N (i + 1) [] = "" from rfl]
      simp only [if_neg hs, data_empty, List.nil_append, List.append_nil]
      exact commaSpacingOk_comma_end
    · obtain ⟨b', rest', rfl⟩ : ∃ b' rest', rest = b' :: rest' := by
        cases rest with
        | nil => exact absurd rfl hr
        | cons x xs => exact ⟨x, xs, rfl⟩
      have hNrec : (i + 1) + (b' :: rest').length = N := by simp at hN ⊢; omega
      have hrec := ih (i + 1) hrest hNrec
      obtain ⟨t, ht⟩ := bodyAux_head_char N (i + 1) b' rest'
      by_cases h15 : i % 16 = 15
      · have hs : ¬ (i < N - 1 ∧ i % 16 ≠ 15) := by simp [h15]
        have h0 : (i + 1) % 16 = 0 := by omega
        rw [ht, if_pos h0] at hrec ⊢
        rw [if_neg hs, data_empty, List.nil_append]
        rw [commaSpacingOk_comma_nl]
        rwa [commaSpacingOk_cons_ne _ (by decide : ('\n' : Char) ≠ ',')] at hrec
      · have hs : i < N - 1 ∧ i % 16 ≠ 15 := by
          refine ⟨?_, h15⟩
          have : 0 < (b' :: rest').length := by simp
          omega
        have h0 : ¬ ((i + 1) % 16 = 0) := by omega
        rw [ht, if_neg h0] at hrec ⊢
        rw [if_pos hs, data_space, List.cons_append, List.nil_append]
        rw [commaSpacingOk_comma_sp_zero]
        exact hrec

/-! ### Chunk structure of the body -/

theorem chunks16_nil : chunks16 [] = [] := by simp [chunks16]

theorem chunks16_cons {l : List Nat} (h : l ≠ []) :
    chunks16 l = l.take 16 :: chunks16 (l.drop 16) := by
  rw [chunks16]
  simp [h]

theorem chunks16_eq_nil_iff {l : List Nat} : chunks16 l = [] ↔ l = [] := by
  constructor
  · intro h
    by_contra hl
    rw [chunks16_cons hl] at h
    exact List.cons_ne_nil _ _ h
  · intro h
    subst h
    exact chunks16_nil

theorem chunks16_length (l : List Nat) :
    (chunks16 l).length = (l.length + 15) / 16 := by
  induction l using chunks16.induct with
  | case1 => simp [chunks16]
  | case2 l h ih =>
    rw [chunks16_cons h]
    simp only [List.length_cons, ih, List.length_drop]
    have : 0 < l.length := List.length_pos.mpr h
    omega

theorem joinStr_cons (s : String) (t : List String) :
    joinStr (s :: t) = s ++ joinStr t := rfl

theorem interComma_cons (s : String) (t : List String) (h : t ≠ []) :
    interComma (s :: t) = s ++ ", " ++ interComma t := by
  cases t with
  | nil => exact absurd rfl h
  | cons a r => rfl

/-! ### Closed form of the emitted body: one `renderChunk` per 16-byte chunk -/

theorem bodyAux_chunk (N : Nat) :
    ∀ (c m : List Nat) (p : Nat),
      c ≠ [] → p % 16 ≠ 0 → p % 16 + c.length ≤ 16 →
      p + c.length + m.length = N → (m ≠ [] → p % 16 + c.length = 16) →
      bodyAux N p (c ++ m) =
        interComma (c.map tokenOf) ++ ("," ++ bodyAux N (p + c.length) m) := by
  intro c
  induction c with
  | nil => intro m p h; exact absurd rfl h
  | cons b c' ih =>
    intro m p _ hp hle hN hfull
    by_cases hc' : c' = []
    · subst hc'
      have hs : ¬ (p < N - 1 ∧ p % 16 ≠ 15) := by
        by_cases hm : m = []
        · subst hm
          simp at hN
          omega
        · have h16 := hfull hm
          simp at h16
          omega
      rw [List.cons_append, List.nil_append, bodyAux, if_neg hp, if_neg hs]
      apply str_ext
      simp [data_append, data_comma, data_empty, interComma, List.append_assoc,
        List.length_cons, List.length_nil]
    · have hlen : 0 < c'.length := List.length_pos.mpr hc'
      have hs : p < N - 1 ∧ p % 16 ≠ 15 := by
        constructor
        · simp at hN
          omega
        · simp at hle
          omega
      have hrec := ih m (p + 1) hc'
        (by omega)
        (by simp at hle ⊢; omega)
        (by simp at hN ⊢; omega)
        (by intro hm; have := hfull hm; simp at this ⊢; omega)
      rw [List.cons_append, bodyAux, if_neg hp, if_pos hs, hrec]
      rw [List.map_cons, interComma_cons _ _ (by simpa using hc')]
      have hidx : p + (b :: c').length = p + 1 + c'.length := by
        simp
        omega
      rw [hidx]
      apply str_ext
      simp [data_append, data_comma, data_space, data_comma_space, data_empty,
        List.append_assoc]


theorem bodyAux_join (N : Nat) :
    ∀ (l : List Nat) (i : Nat), i % 16 = 0 → i + l.length = N →
      bodyAux N i l = joinStr ((chunks16 l).map renderChunk) := by
  intro l
  induction l using chunks16.induct with
  | case1 =>
    intro i _ _
    rw [chunks16_nil]
    rfl
  | case2 l h ih =>
    intro i hi hN
    obtain ⟨b, l', rfl⟩ : ∃ b l', l = b :: l' := by
      cases l with
      | nil => exact absurd rfl h
      | cons x xs => exact ⟨x, xs, rfl⟩
    have htake16 : (b :: l').take 16 = b :: l'.take 15 := rfl
    have hdrop16 : (b :: l').drop 16 = l'.drop 15 := rfl
    have hN' : i + (l'.length + 1) = N := by simpa using hN
    rw [chunks16_cons h, List.map_cons, joinStr_cons, htake16, hdrop16]
    by_cases hl' : l' = []
    · subst hl'
      have hN1 : i + 1 = N := by simpa using hN'
      have hs : ¬ (i < N - 1 ∧ i % 16 ≠ 15) := by omega
      rw [bodyAux, if_pos hi, if_neg hs]
      rw [show bodyAux N (i + 1) [] = "" from rfl]
      rw [show List.drop 15 ([] : List Nat) = ([] : List Nat) from rfl, chunks16_nil]
      apply str_ext
      simp [data_append, data_comma, data_empty, data_nl_indent, renderChunk,
        interComma, joinStr, List.append_assoc]
    · have hlen' : 0 < l'.length := List.length_pos.mpr hl'
      have hs : i < N - 1 ∧ i % 16 ≠ 15 := by
        refine ⟨by omega, by omega⟩
      rw [bodyAux, if_pos hi, if_pos hs]
      have hsplit : l' = l'.take 15 ++ l'.drop 15 := (List.take_append_drop 15 l').symm
      have htlen : (l'.take 15).length = min 15 l'.length := List.length_take 15 l'
      have hdlen : (l'.drop 15).length = l'.length - 15 := List.length_drop 15 l'
      have hchunk := bodyAux_chunk N (l'.take 15) (l'.drop 15) (i + 1)
        (by
          intro hnil
          have : (l'.take 15).length = 0 := by rw [hnil]; rfl
          rw [htlen] at this
          omega)
        (by omega)
        (by rw [htlen]; omega)
        (by rw [htlen, hdlen]; omega)
        (by
          intro hm
          have hd : 0 < (l'.drop 15).length := List.length_pos.mpr hm
          rw [hdlen] at hd
          rw [htlen]
          omega)
      rw [show bodyAux N (i + 1) l' = bodyAux N (i + 1) (l'.take 15 ++ l'.drop 15) from by
        rw [List.take_append_drop]]
      rw [hchunk]
      by_cases hdrop : l'.drop 15 = []
      · have hsplit' : l' = l'.take 15 := by
          conv_lhs => rw [hsplit]
          rw [hdrop, List.append_nil]
        rw [hdrop, chunks16_nil]
        rw [show bodyAux N (i + 1 + (l'.take 15).length) [] = "" from rfl]
        rw [← hsplit']
        rw [renderChunk, List.map_cons,
          interComma_cons _ _ (by simpa using hl')]
        apply str_ext
        simp [data_append, data_comma, data_space, data_comma_space, data_empty,
          data_nl_indent, joinStr, List.append_assoc]
      · have hd : 0 < (l'.drop 15).length := List.length_pos.mpr hdrop
        rw [hdlen] at hd
        have htake15len : (l'.take 15).length = 15 := by rw [htlen]; omega
        have htake15ne : l'.take 15 ≠ [] := by
          intro hnil
          rw [hnil] at htake15len
          exact absurd htake15len (by decide)
        rw [htake15len, show i + 1 + 15 = i + 16 from by omega]
        have hih := ih (i + 16) (by omega) (by rw [hdrop16, hdlen]; omega)
        rw [hdrop16] at hih
        rw [hih]
        rw [renderChunk, List.map_cons,
          interComma_cons _ _ (by simpa using htake15ne)]
        apply str_ext
        simp [data_append, data_comma, data_space, data_comma_space, data_empty,
          data_nl_indent, List.append_assoc]

theorem arrayBody_join (data : List Nat) :
    arrayBody data = joinStr ((chunks16 data).map renderChunk) :=
  bodyAux_join data.length data 0 (by omega) (by omega)

theorem chunks16_mem_props :
    ∀ (l : List Nat), ∀ c ∈ chunks16 l, c ≠ [] ∧ c.length ≤ 16 ∧ ∀ b ∈ c, b ∈ l := by
  intro l
  induction l using chunks16.induct with
  | case1 =>
    intro c hc
    rw [chunks16_nil] at hc
    exact absurd hc (List.not_mem_nil c)
  | case2 l h ih =>
    intro c hc
    rw [chunks16_cons h] at hc
    rcases List.mem_cons.mp hc with rfl | hmem
    · have hlen0 : 0 < l.length := List.length_pos.mpr h
      have htlen := List.length_take 16 l
      refine ⟨?_, by omega, fun b hb => List.take_subset 16 l hb⟩
      intro hnil
      rw [hnil] at htlen
      simp at htlen
      omega
    · obtain ⟨hne, hlen, hsub⟩ := ih c hmem
      exact ⟨hne, hlen, fun b hb => List.drop_subset 16 l (hsub b hb)⟩

theorem chunks16_dropLast_full :
    ∀ (l : List Nat), ∀ c ∈ (chunks16 l).dropLast, c.length = 16 := by
  intro l
  induction l using chunks16.induct with
  | case1 =>
    intro c hc
    rw [chunks16_nil] at hc
    exact absurd hc (List.not_mem_nil c)
  | case2 l h ih =>
    intro c hc
    rw [chunks16_cons h] at hc
    by_cases hd : l.drop 16 = []
    · rw [hd, chunks16_nil] at hc
      simp at hc
    · have hne : chunks16 (l.drop 16) ≠ [] := fun hz => hd (chunks16_eq_nil_iff.mp hz)
      rw [List.dropLast_cons_of_ne_nil hne] at hc
      rcases List.mem_cons.mp hc with rfl | hmem
      · have hd' : 0 < (l.drop 16).length := List.length_pos.mpr hd
        have hdl := List.length_drop 16 l
        have htl := List.length_take 16 l
        omega
      · exact ih c hmem

theorem renderChunk_eq_arrayBody {c : List Nat} (h1 : c ≠ []) (h2 : c.length ≤ 16) :
    renderChunk c = arrayBody c := by
  rw [arrayBody_join c, chunks16_cons h1, List.drop_eq_nil_of_le h2, chunks16_nil,
    List.take_of_length_le h2]
  rw [List.map_cons, List.map_nil, joinStr_cons]
  rw [show joinStr [] = "" from rfl, str_append_empty]

/-! ### Claim theorems -/

/-- C1 counterexample: for the one-byte input `[0x00]` the emitted array body
is `"\n    0x00,"` and its last character is a comma sitting directly after
the final byte literal, so the body does contain a trailing comma after the
final byte — the claim as stated is false. -/
theorem c1_no_trailing_comma_cex :
    arrayBody [0] = "\n    0x00," ∧ (arrayBody [0]).data.getLast? = some ',' := by
  constructor
  · decide
  · decide

/-- C1 amended: a comma follows every byte literal, including the final one —
for nonempty input the array body ends with a comma — and every comma that is
not at the end of a payload line is followed by exactly one space
(`commaSpacingOk` accepts a comma followed by a newline, a comma at the very
end of the body, and otherwise demands exactly one following space). -/
theorem c1_comma_discipline (data : List Nat) (hbytes : ∀ b ∈ data, b < 256)
    (hne : data ≠ []) :
    (arrayBody data).data.getLast? = some ',' ∧
      commaSpacingOk (arrayBody data).data = true := by
  constructor
  · obtain ⟨t, ht⟩ := bodyAux_ends_comma data.length data 0 hne (by omega)
    rw [arrayBody, ht]
    simp
  · exact commaSpacingOk_bodyAux data.length data 0 hbytes (by omega)

theorem c1_comma_discipline_wit :
    (∀ b ∈ [18, 255], b < 256) ∧ ([18, 255] ≠ ([] : List Nat)) ∧
      ((arrayBody [18, 255]).data.getLast? = some ',' ∧
        commaSpacingOk (arrayBody [18, 255]).data = true) :=
  ⟨by decide, by decide, c1_comma_discipline [18, 255] (by decide) (by decide)⟩

/-- C2: decoding the emitted array body by parsing each `0xNN` token, in
emission order, reproduces the original input bytes exactly; in particular
emission order equals input byte order. -/
theorem c2_roundtrip (data : List Nat) (hbytes : ∀ b ∈ data, b < 256) :
    extractTokens (arrayBody data).data = data :=
  extractTokens_bodyAux data.length data 0 hbytes

theorem c2_roundtrip_wit :
    (∀ b ∈ [0, 1, 15, 16, 171, 255], b < 256) ∧
      extractTokens (arrayBody [0, 1, 15, 16, 171, 255]).data = [0, 1, 15, 16, 171, 255] :=
  ⟨by decide, c2_roundtrip [0, 1, 15, 16, 171, 255] (by decide)⟩

/-- C3: the emitted size constant equals the input length: the number of byte
literals in the array body equals `data.length`, and the generated text
carries the line `const unsigned int SPLASH_IMAGE_SIZE = <data.length>;`
(the decimal rendering of that same length). -/
theorem c3_size_constant (bn : String) (data : List Nat)
    (hbytes : ∀ b ∈ data, b < 256) :
    (extractTokens (arrayBody data).data).length = data.length ∧
      headerText bn data =
        (headerTop bn data.length ++ arrayBody data ++ "\n\x7d;\n\n") ++
          ("const unsigned int SPLASH_IMAGE_SIZE = " ++ toString data.length ++ ";") ++
          "\n\n#endif // SPLASH_IMAGE_DATA_H\n" := by
  constructor
  · rw [arrayBody, extractTokens_bodyAux data.length data 0 hbytes]
  · have hsp1 : ("\n\x7d;\n\nconst unsigned int SPLASH_IMAGE_SIZE = " : String).data =
        ("\n\x7d;\n\n" : String).data ++
          ("const unsigned int SPLASH_IMAGE_SIZE = " : String).data := rfl
    have hsp2 : (";\n\n#endif // SPLASH_IMAGE_DATA_H\n" : String).data =
        (";" : String).data ++ ("\n\n#endif // SPLASH_IMAGE_DATA_H\n" : String).data := rfl
    apply str_ext
    simp [headerText, headerTail, data_append, hsp1, hsp2, List.append_assoc]

theorem c3_size_constant_wit :
    (∀ b ∈ [7, 200], b < 256) ∧
      ((extractTokens (arrayBody [7, 200]).data).length = [7, 200].length ∧
        headerText "a.png" [7, 200] =
          (headerTop "a.png" [7, 200].length ++ arrayBody [7, 200] ++ "\n\x7d;\n\n") ++
            ("const unsigned int SPLASH_IMAGE_SIZE = " ++ toString [7, 200].length ++ ";") ++
            "\n\n#endif // SPLASH_IMAGE_DATA_H\n") :=
  ⟨by decide, c3_size_constant "a.png" [7, 200] (by decide)⟩

/-- C4: the body is the concatenation of exactly `ceil(N/16)` payload lines,
one per 16-byte chunk of the input, each introduced by a line break and four
spaces of indentation (`renderChunk`), every chunk except possibly the last
holding exactly 16 byte literals, and the literals of each line being exactly
that chunk's bytes. -/
theorem c4_line_wrapping (data : List Nat) (hbytes : ∀ b ∈ data, b < 256) :
    arrayBody data = joinStr ((chunks16 data).map renderChunk) ∧
      (chunks16 data).length = (data.length + 15) / 16 ∧
      (∀ c ∈ (chunks16 data).dropLast, c.length = 16) ∧
      (∀ c ∈ chunks16 data, c ≠ [] ∧ c.length ≤ 16 ∧
        extractTokens (renderChunk c).data = c) := by
  refine ⟨arrayBody_join data, chunks16_length data, chunks16_dropLast_full data, ?_⟩
  intro c hc
  obtain ⟨hne, hlen, hsub⟩ := chunks16_mem_props data c hc
  refine ⟨hne, hlen, ?_⟩
  rw [renderChunk_eq_arrayBody hne hlen]
  exact extractTokens_bodyAux c.length c 0 (fun b hb => hbytes b (hsub b hb))

theorem c4_line_wrapping_wit :
    (∀ b ∈ List.range 17, b < 256) ∧
      (arrayBody (List.range 17) = joinStr ((chunks16 (List.range 17)).map renderChunk) ∧
        (chunks16 (List.range 17)).length = ((List.range 17).length + 15) / 16 ∧
        (∀ c ∈ (chunks16 (List.range 17)).dropLast, c.length = 16) ∧
        (∀ c ∈ chunks16 (List.range 17), c ≠ [] ∧ c.length ≤ 16 ∧
          extractTokens (renderChunk c).data = c)) :=
  ⟨by decide, c4_line_wrapping (List.range 17) (by decide)⟩

/-- C5: when the input path does not exist in the filesystem the function
returns `False` without raising, and the filesystem — in particular the
output path — is left completely unchanged (no write is attempted). -/
theorem c5_missing_input (fs : FS) (p o : String) (w : WriteOutcome) (h : fs p = none) :
    png_to_cpp_array fs p o w = RunResult.ret false fs := by
  simp [png_to_cpp_array, h]

theorem c5_missing_input_wit :
    ((fun _ => none : FS) "missing.png" = none) ∧
      png_to_cpp_array (fun _ => none) "missing.png" "out.h" WriteOutcome.success =
        RunResult.ret false (fun _ => none) :=
  ⟨rfl, c5_missing_input (fun _ => none) "missing.png" "out.h" WriteOutcome.success rfl⟩

theorem data_nl : ("\n").data = ['\n'] := rfl

/-- C6 counterexample: already on the one-byte input `[0x00]` (basename
`a.png`) the generated text differs from the spec's exact output-format
block: the code inserts a line break before the first payload line (leaving
a blank line after the array declaration) and emits a comma after the final
byte literal, while the spec block shows neither. -/
theorem c6_exact_format_cex :
    headerText "a.png" [0] ≠ specHeaderFormat "a.png" [0] := by
  rw [specHeaderFormat, specArrayBody, show chunks16 [0] = [[0]] from by simp [chunks16]]
  decide

/-- C6 amended: the generated text matches the spec's format block except in
the array body: the spec block is the same frame (`headerTop`/`headerTail`)
around `specArrayBody`, the code emits the same frame around the chunk-wise
body, and each emitted payload line is exactly the spec's payload line
preceded by a line break (hence the blank line after the declaration line)
and followed by a trailing comma. -/
theorem c6_exact_format_amended (bn : String) (data : List Nat) :
    specHeaderFormat bn data =
      headerTop bn data.length ++ specArrayBody data ++ headerTail data.length ∧
    headerText bn data =
      headerTop bn data.length ++ joinStr ((chunks16 data).map renderChunk) ++
        headerTail data.length ∧
    ∀ c : List Nat, renderChunk c = "\n" ++ specLine c ++ "," := by
  refine ⟨?_, ?_, ?_⟩
  · apply str_ext
    simp [specHeaderFormat, headerTop, headerTail, data_append, List.append_assoc]
  · rw [headerText, arrayBody_join]
  · intro c
    apply str_ext
    simp [renderChunk, specLine, data_append, data_nl_indent, data_indent, data_nl,
      data_comma, List.append_assoc]

/-- C7 counterexample: for the 17-byte input `[0x00, ..., 0x10]` the second
payload line is `    0x10,` — the single entry `0x10` is followed by a
comma, contradicting the claimed `no comma after it`. -/
theorem c7_17bytes_cex :
    arrayBody (List.range 17) =
      "\n    0x00, 0x01, 0x02, 0x03, 0x04, 0x05, 0x06, 0x07, 0x08, 0x09, 0x0a, 0x0b, 0x0c, 0x0d, 0x0e, 0x0f,"
        ++ "\n    0x10," ∧
      (arrayBody (List.range 17)).data.getLast? = some ',' := by
  constructor
  · decide
  · decide

/-- C7 amended: for the 17-byte input `[0x00, ..., 0x10]` the body spans
exactly two payload lines, the first holding the 16 entries `0x00,` through
`0x0f,` and the second the single entry `0x10` followed by a comma; the size
constant emitted in the surrounding text is `17`. -/
theorem c7_17bytes_scenario :
    arrayBody (List.range 17) =
      "\n    0x00, 0x01, 0x02, 0x03, 0x04, 0x05, 0x06, 0x07, 0x08, 0x09, 0x0a, 0x0b, 0x0c, 0x0d, 0x0e, 0x0f,"
        ++ "\n    0x10," ∧
      headerText "CompanySplashScreen.png" (List.range 17) =
        headerTop "CompanySplashScreen.png" 17 ++ arrayBody (List.range 17) ++
          headerTail 17 := by
  constructor
  · decide
  · rfl

/-- C8: re-running the conversion on the same input twice writes the same
bytes to the output path: with the input readable and distinct from the
output path, both runs return `True` and after each run the output file
holds exactly the bytes of `headerText (basename p) data` — a deterministic
function of the input bytes and the input path's basename. -/
theorem c8_idempotent (fs : FS) (p o : String) (data : List Nat)
    (hp : fs p = some (FileVal.readable data)) (hne : p ≠ o) :
    ∃ fs1 fs2,
      png_to_cpp_array fs p o WriteOutcome.success = RunResult.ret true fs1 ∧
      png_to_cpp_array fs1 p o WriteOutcome.success = RunResult.ret true fs2 ∧
      fs1 o = fs2 o ∧
      fs1 o = some (FileVal.readable (strBytes (headerText (basename p) data))) := by
  refine ⟨fsUpdate fs o (FileVal.readable (strBytes (headerText (basename p) data))),
    fsUpdate (fsUpdate fs o (FileVal.readable (strBytes (headerText (basename p) data)))) o
      (FileVal.readable (strBytes (headerText (basename p) data))), ?_, ?_, ?_, ?_⟩
  · simp [png_to_cpp_array, hp]
  · have hp1 : fsUpdate fs o (FileVal.readable (strBytes (headerText (basename p) data))) p =
        some (FileVal.readable data) := by
      simp [fsUpdate, if_neg hne, hp]
    simp [png_to_cpp_array, hp1]
  · simp [fsUpdate]
  · simp [fsUpdate]

theorem c8_idempotent_wit :
    ((fun q => if q = "in.png" then some (FileVal.readable [0]) else none : FS) "in.png" =
        some (FileVal.readable [0])) ∧
      (("in.png" : String) ≠ "out.h") ∧
      ∃ fs1 fs2,
        png_to_cpp_array
            (fun q => if q = "in.png" then some (FileVal.readable [0]) else none)
            "in.png" "out.h" WriteOutcome.success = RunResult.ret true fs1 ∧
        png_to_cpp_array fs1 "in.png" "out.h" WriteOutcome.success = RunResult.ret true fs2 ∧
        fs1 "out.h" = fs2 "out.h" ∧
        fs1 "out.h" =
          some (FileVal.readable (strBytes (headerText (basename "in.png") [0]))) :=
  ⟨by decide, by decide,
    c8_idempotent (fun q => if q = "in.png" then some (FileVal.readable [0]) else none)
      "in.png" "out.h" [0] (by decide) (by decide)⟩

/-- A caught write failure is not an atomic no-op: with a readable one-byte
input and a write that raises after 5 bytes have reached the destination,
the run returns `False` while the output path is left holding just those 5
bytes — a truncated prefix of the intended text. -/
theorem write_failure_truncates :
    ∃ fs1,
      png_to_cpp_array
          (fun q => if q = "in.png" then some (FileVal.readable [0]) else none)
          "in.png" "out.h" (WriteOutcome.writeFailure 5) = RunResult.ret false fs1 ∧
      fs1 "out.h" =
        some (FileVal.readable
          ((strBytes (headerText (basename "in.png") [0])).take 5)) := by
  refine ⟨fsUpdate (fun q => if q = "in.png" then some (FileVal.readable [0]) else none)
    "out.h" (FileVal.readable
      ((strBytes (headerText (basename "in.png") [0])).take 5)), ?_, ?_⟩
  · have hp : (fun q => if q = "in.png" then some (FileVal.readable [0]) else none : FS)
        "in.png" = some (FileVal.readable [0]) := by decide
    simp [png_to_cpp_array, hp]
  · simp [fsUpdate]

/-- C9: only the write step is guarded: a file that exists but cannot be
read makes the function raise — the exception propagates uncaught with the
filesystem untouched, and a raise happens only on that path — while a
`False` return arises only from the missing-input check (filesystem
untouched) or from a caught write-step exception, where a failing `open`
leaves the filesystem untouched and a failure during `write` leaves the
output path holding a truncated prefix of the intended bytes. -/
theorem c9_error_paths (fs : FS) (p o : String) (wr : WriteOutcome) :
    (fs p = some FileVal.unreadable → png_to_cpp_array fs p o wr = RunResult.raised fs) ∧
    (∀ fs1, png_to_cpp_array fs p o wr = RunResult.raised fs1 →
      fs1 = fs ∧ fs p = some FileVal.unreadable) ∧
    (∀ fs1, png_to_cpp_array fs p o wr = RunResult.ret false fs1 →
      (fs p = none ∧ fs1 = fs) ∨
      (∃ d, fs p = some (FileVal.readable d) ∧
        ((wr = WriteOutcome.openFailure ∧ fs1 = fs) ∨
         (∃ k, wr = WriteOutcome.writeFailure k ∧
           fs1 = fsUpdate fs o (FileVal.readable
             ((strBytes (headerText (basename p) d)).take k)))))) := by
  refine ⟨?_, ?_, ?_⟩
  · intro h
    simp [png_to_cpp_array, h]
  · intro fs1 h
    cases hfp : fs p with
    | none => simp [png_to_cpp_array, hfp] at h
    | some v =>
      cases v with
      | unreadable =>
        simp [png_to_cpp_array, hfp] at h
        exact ⟨h.symm, rfl⟩
      | readable d =>
        cases wr with
        | success => simp [png_to_cpp_array, hfp] at h
        | openFailure => simp [png_to_cpp_array, hfp] at h
        | writeFailure k => simp [png_to_cpp_array, hfp] at h
  · intro fs1 h
    cases hfp : fs p with
    | none =>
      simp [png_to_cpp_array, hfp] at h
      exact Or.inl ⟨rfl, h.symm⟩
    | some v =>
      cases v with
      | unreadable => simp [png_to_cpp_array, hfp] at h
      | readable d =>
        cases wr with
        | success => simp [png_to_cpp_array, hfp] at h
        | openFailure =>
          simp [png_to_cpp_array, hfp] at h
          exact Or.inr ⟨d, rfl, Or.inl ⟨rfl, h.symm⟩⟩
        | writeFailure k =>
          simp [png_to_cpp_array, hfp] at h
          exact Or.inr ⟨d, rfl, Or.inr ⟨k, rfl, h.symm⟩⟩

theorem c9_error_paths_wit :
    ((fun q => if q = "u.png" then some FileVal.unreadable else none : FS) "u.png" =
        some FileVal.unreadable) ∧
      png_to_cpp_array (fun q => if q = "u.png" then some FileVal.unreadable else none)
          "u.png" "out.h" WriteOutcome.success =
        RunResult.raised (fun q => if q = "u.png" then some FileVal.unreadable else none) :=
  ⟨by decide,
    (c9_error_paths (fun q => if q = "u.png" then some FileVal.unreadable else none)
      "u.png" "out.h" WriteOutcome.success).1 (by decide)⟩

/-- C10: every byte is emitted as the four characters `0x` followed by two
lowercase hexadecimal digits (zero-padded below `0x10`), and every literal
occurring in the array body is such a `tokenOf` rendering of an input byte
(the body being the chunk-wise concatenation of `renderChunk` lines built
from `tokenOf`). -/
theorem c10_literal_shape (data : List Nat) (hbytes : ∀ b ∈ data, b < 256) :
    (∀ b ∈ data,
      (tokenOf b).data = ['0', 'x', Nat.digitChar (b / 16), Nat.digitChar (b % 16)] ∧
      isLowerHexDigit (Nat.digitChar (b / 16)) = true ∧
      isLowerHexDigit (Nat.digitChar (b % 16)) = true) ∧
    arrayBody data = joinStr ((chunks16 data).map renderChunk) := by
  refine ⟨?_, arrayBody_join data⟩
  intro b hb
  have hblt : b < 256 := hbytes b hb
  exact ⟨tokenOf_data hblt, digitChar_isLowerHex _ (by omega),
    digitChar_isLowerHex _ (by omega)⟩

theorem c10_literal_shape_wit :
    (∀ b ∈ [0, 9, 10, 15, 16, 255], b < 256) ∧
      ((∀ b ∈ [0, 9, 10, 15, 16, 255],
        (tokenOf b).data = ['0', 'x', Nat.digitChar (b / 16), Nat.digitChar (b % 16)] ∧
        isLowerHexDigit (Nat.digitChar (b / 16)) = true ∧
        isLowerHexDigit (Nat.digitChar (b % 16)) = true) ∧
      arrayBody [0, 9, 10, 15, 16, 255] =
        joinStr ((chunks16 [0, 9, 10, 15, 16, 255]).map renderChunk)) :=
  ⟨by decide, c10_literal_shape [0, 9, 10, 15, 16, 255] (by decide)⟩
